import Mathlib

/-!
Shallow embedding of `src/style/table.rs` from the comfy-table repository.

The Rust code keeps a `HashMap<Component, char>`; its observable behaviour is
the partial map `Component → Option Char`, which is how we model it.  Methods
taking `&mut self` become state-passing functions `TableStyle → ... → TableStyle`;
`get_style` takes `&mut self` in the source and returns an `Option<char>`, so it
is embedded as returning the read value together with the (possibly updated)
state, making its frame property statable.
-/

/-- All configurable table components, in the canonical order of the Rust
`Component` enum (`#[derive(EnumIter)]`). -/
inductive Component where
  | LeftBorder
  | RightBorder
  | TopBorder
  | BottomBorder
  | LeftHeaderIntersection
  | HeaderLines
  | MiddleHeaderIntersections
  | RightHeaderIntersection
  | VerticalLines
  | HorizontalLines
  | MiddleIntersections
  | LeftBorderIntersections
  | RightBorderIntersections
  | TopBorderIntersections
  | BottomBorderIntersections
  | TopLeftCorner
  | TopRightCorner
  | BottomLeftCorner
  | BottomRightCorner
  deriving DecidableEq, Repr

/-- `Component::iter()` from strum's `EnumIter`: the variants in declaration
order. -/
def Component.iter : List Component :=
  [Component.LeftBorder, Component.RightBorder, Component.TopBorder,
   Component.BottomBorder, Component.LeftHeaderIntersection,
   Component.HeaderLines, Component.MiddleHeaderIntersections,
   Component.RightHeaderIntersection, Component.VerticalLines,
   Component.HorizontalLines, Component.MiddleIntersections,
   Component.LeftBorderIntersections, Component.RightBorderIntersections,
   Component.TopBorderIntersections, Component.BottomBorderIntersections,
   Component.TopLeftCorner, Component.TopRightCorner,
   Component.BottomLeftCorner, Component.BottomRightCorner]

/-- The observable content of the `HashMap<Component, char>`. -/
def StyleMap : Type := Component → Option Char

/-- `HashMap::insert`. -/
def insertStyle (m : StyleMap) (k : Component) (v : Char) : StyleMap :=
  fun k2 => if k2 = k then some v else m k2

/-- `HashMap::remove`. -/
def removeStyle (m : StyleMap) (k : Component) : StyleMap :=
  fun k2 => if k2 = k then none else m k2

/-- The `TableStyle` struct: a header-presence flag and the style map. -/
@[ext]
structure TableStyle where
  has_header : Bool
  style : StyleMap

/-- The loop of `TableStyle::load_preset`: walk the preset characters and the
component iterator in lock-step (`components.next()` is called for every
character); a space removes the component's mapping, any other character
inserts it; the loop breaks when the component iterator is exhausted. -/
def loadPresetAux : List Char → List Component → StyleMap → StyleMap
  | [], _, m => m
  | _ :: _, [], m => m
  | c :: cs, comp :: comps, m =>
    if c = ' ' then loadPresetAux cs comps (removeStyle m comp)
    else loadPresetAux cs comps (insertStyle m comp c)

/-- `TableStyle::load_preset`. -/
def TableStyle.load_preset (ts : TableStyle) (preset : String) : TableStyle :=
  { ts with style := loadPresetAux preset.data Component.iter ts.style }

/-- The loop of `TableStyle::apply_modifier`: a space character is skipped
with `continue` BEFORE `components.next()` is called, so it does not consume
a component; a non-space character takes the next component and inserts,
breaking when the iterator is exhausted. -/
def applyModifierAux : List Char → List Component → StyleMap → StyleMap
  | [], _, m => m
  | c :: cs, comps, m =>
    if c = ' ' then applyModifierAux cs comps m
    else
      match comps with
      | [] => m
      | comp :: rest => applyModifierAux cs rest (insertStyle m comp c)

/-- `TableStyle::apply_modifier` (returns `&mut Self`, i.e. the new state). -/
def TableStyle.apply_modifier (ts : TableStyle) (modifier : String) : TableStyle :=
  { ts with style := applyModifierAux modifier.data Component.iter ts.style }

/-- `TableStyle::set_style`: `Some` inserts/overwrites, `None` does nothing. -/
def TableStyle.set_style (ts : TableStyle) (component : Component)
    (character : Option Char) : TableStyle :=
  match character with
  | some c => { ts with style := insertStyle ts.style component c }
  | none => ts

/-- `TableStyle::get_style`: takes `&mut self` in the source, so the embedding
returns the read value together with the resulting state.  The body only
matches on `self.style.get(&component)` and copies the character out. -/
def TableStyle.get_style (ts : TableStyle) (component : Component) :
    Option Char × TableStyle :=
  (match ts.style component with
   | none => none
   | some character => some character, ts)

/-- `TableStyle::style_or_default`. -/
def TableStyle.style_or_default (ts : TableStyle) (component : Component) : String :=
  match ts.style component with
  | none => " "
  | some character => Char.toString character

/-- `TableStyle::style_exists`. -/
def TableStyle.style_exists (ts : TableStyle) (component : Component) : Bool :=
  (ts.style component).isSome

/-- Modelled from the spec: the built-in default preset `ASCII_FULL` lives in
`src/style/presets.rs`, which is not among the provided sources.  The spec only
says it is a "built-in full-coverage preset" (a fixed, statically-initialized
character sequence covering every component), so a fixed 19-character string
with no spaces is faithful; its exact characters are irrelevant to every claim
proved below. -/
def ASCII_FULL : String := "||--+=+++|-++++++++"

/-- `TableStyle::new`: starts from `has_header = false` and an empty map, then
loads the built-in default preset. -/
def TableStyle.new : TableStyle :=
  TableStyle.load_preset { has_header := false, style := fun _ => none } ASCII_FULL

/-- States reachable from `TableStyle::new` through the style operations
alone. -/
inductive Reachable : TableStyle → Prop where
  | new : Reachable TableStyle.new
  | load_preset (ts : TableStyle) (s : String) :
      Reachable ts → Reachable (ts.load_preset s)
  | apply_modifier (ts : TableStyle) (s : String) :
      Reachable ts → Reachable (ts.apply_modifier s)
  | set_style (ts : TableStyle) (c : Component) (oc : Option Char) :
      Reachable ts → Reachable (ts.set_style c oc)
  | get_style (ts : TableStyle) (c : Component) :
      Reachable ts → Reachable (ts.get_style c).2

/-! ## Helper lemmas about the two parsing loops -/

/-- The canonical component order has no repeated component. -/
lemma Component.iter_nodup : Component.iter.Nodup := by decide

/-- There are 19 components. -/
lemma Component.iter_length : Component.iter.length = 19 := by decide

/-- A key outside the consumed prefix of the component order is untouched by
the preset loop. -/
lemma loadPresetAux_not_mem (cs : List Char) :
    ∀ (comps : List Component) (m : StyleMap) (k : Component),
      k ∉ comps.take cs.length → loadPresetAux cs comps m k = m k := by
  induction cs with
  | nil => intro comps m k _; rfl
  | cons c cs ih =>
    intro comps m k hk
    cases comps with
    | nil => rfl
    | cons comp comps =>
      simp only [List.length_cons, List.take_succ_cons, List.mem_cons,
        not_or] at hk
      obtain ⟨hne, hnm⟩ := hk
      by_cases hc : c = ' '
      · simp only [loadPresetAux, if_pos hc]
        rw [ih comps _ k hnm]
        simp [removeStyle, hne]
      · simp only [loadPresetAux, if_neg hc]
        rw [ih comps _ k hnm]
        simp [insertStyle, hne]

/-- The value of the key consumed at position `i` of the preset loop: a space
character removes it, anything else maps it to that character.  Requires the
component order to be duplicate-free so that no later step retouches it. -/
lemma loadPresetAux_get (cs : List Char) :
    ∀ (comps : List Component) (m : StyleMap) (i : Nat)
      (h1 : i < cs.length) (h2 : i < comps.length), comps.Nodup →
      loadPresetAux cs comps m (comps.get ⟨i, h2⟩) =
        (if cs.get ⟨i, h1⟩ = ' ' then none else some (cs.get ⟨i, h1⟩)) := by
  induction cs with
  | nil => intro comps m i h1; exact absurd h1 (by simp)
  | cons c cs ih =>
    intro comps m i h1 h2 hnd
    cases comps with
    | nil => exact absurd h2 (by simp)
    | cons comp comps =>
      rw [List.nodup_cons] at hnd
      cases i with
      | zero =>
        simp only [List.get]
        have hskip : comp ∉ comps.take cs.length :=
          fun hmem => hnd.1 (List.take_subset _ _ hmem)
        by_cases hc : c = ' '
        · simp only [loadPresetAux, if_pos hc]
          rw [loadPresetAux_not_mem cs comps _ comp hskip]
          simp [removeStyle, hc]
        · simp only [loadPresetAux, if_neg hc]
          rw [loadPresetAux_not_mem cs comps _ comp hskip]
          simp [insertStyle, hc]
      | succ j =>
        simp only [List.get]
        have h1' : j < cs.length := Nat.lt_of_succ_lt_succ h1
        have h2' : j < comps.length := Nat.lt_of_succ_lt_succ h2
        by_cases hc : c = ' '
        · simp only [loadPresetAux, if_pos hc]
          exact ih comps _ j h1' h2' hnd.2
        · simp only [loadPresetAux, if_neg hc]
          exact ih comps _ j h1' h2' hnd.2

/-- Membership in a `take` prefix produces an explicit index. -/
lemma mem_take_index {α : Type} (l : List α) :
    ∀ (n : Nat) (k : α), k ∈ l.take n →
      ∃ i, i < n ∧ ∃ h2 : i < l.length, l.get ⟨i, h2⟩ = k := by
  induction l with
  | nil => intro n k hk; simp at hk
  | cons a l ih =>
    intro n k hk
    cases n with
    | zero => simp at hk
    | succ n =>
      rw [List.take_succ_cons, List.mem_cons] at hk
      rcases hk with hk | hk
      · exact ⟨0, Nat.succ_pos n, by simp, hk.symm⟩
      · obtain ⟨i, hi1, hi2, hget⟩ := ih n k hk
        exact ⟨i + 1, Nat.succ_lt_succ hi1, Nat.succ_lt_succ hi2, hget⟩

/-- The modifier loop with an exhausted component iterator leaves the map
unchanged (the remaining characters are spaces-skipped or break the loop). -/
lemma applyModifierAux_nil (cs : List Char) (m : StyleMap) :
    applyModifierAux cs [] m = m := by
  induction cs with
  | nil => rfl
  | cons c cs ih =>
    by_cases hc : c = ' '
    · simp only [applyModifierAux, if_pos hc]; exact ih
    · simp only [applyModifierAux, if_neg hc]

/-- Characters of a preset beyond the component count are ignored. -/
lemma loadPresetAux_append (cs : List Char) :
    ∀ (t : List Char) (comps : List Component) (m : StyleMap),
      comps.length ≤ cs.length →
      loadPresetAux (cs ++ t) comps m = loadPresetAux cs comps m := by
  induction cs with
  | nil =>
    intro t comps m hlen
    have : comps = [] := List.eq_nil_of_length_eq_zero (Nat.le_zero.mp hlen)
    subst this
    simp only [List.nil_append, loadPresetAux]
    cases t with
    | nil => rfl
    | cons c t => rfl
  | cons c cs ih =>
    intro t comps m hlen
    cases comps with
    | nil =>
      cases t with
      | nil => simp
      | cons d t =>
        by_cases hc : c = ' ' <;> simp only [List.cons_append, loadPresetAux]
    | cons comp comps =>
      simp only [List.length_cons, Nat.succ_le_succ_iff] at hlen
      by_cases hc : c = ' '
      · simp only [List.cons_append, loadPresetAux, if_pos hc]
        exact ih t comps _ hlen
      · simp only [List.cons_append, loadPresetAux, if_neg hc]
        exact ih t comps _ hlen

/-- Characters of a modifier beyond the point where the component iterator is
exhausted are ignored; only non-space characters consume components. -/
lemma applyModifierAux_append (cs : List Char) :
    ∀ (t : List Char) (comps : List Component) (m : StyleMap),
      comps.length ≤ (cs.filter (fun c => !(c == ' '))).length →
      applyModifierAux (cs ++ t) comps m = applyModifierAux cs comps m := by
  induction cs with
  | nil =>
    intro t comps m hlen
    have : comps = [] := List.eq_nil_of_length_eq_zero (Nat.le_zero.mp hlen)
    subst this
    simp only [List.nil_append, applyModifierAux, applyModifierAux_nil]
  | cons c cs ih =>
    intro t comps m hlen
    by_cases hc : c = ' '
    · have hfil : (c :: cs).filter (fun c => !(c == ' ')) =
          cs.filter (fun c => !(c == ' ')) := by
        simp [List.filter, hc]
      rw [hfil] at hlen
      simp only [List.cons_append, applyModifierAux, if_pos hc]
      exact ih t comps m hlen
    · have hb : (!(c == ' ')) = true := by simp [hc]
      have hfil : (c :: cs).filter (fun c => !(c == ' ')) =
          c :: cs.filter (fun c => !(c == ' ')) := by
        simp [List.filter, hb]
      rw [hfil] at hlen
      cases comps with
      | nil => rw [applyModifierAux_nil, applyModifierAux_nil]
      | cons comp comps =>
        simp only [List.length_cons, Nat.succ_le_succ_iff] at hlen
        simp only [List.cons_append, applyModifierAux, if_neg hc]
        exact ih t comps _ hlen

/-- `String.append` concatenates the underlying character lists. -/
lemma string_data_append (s t : String) : (s ++ t).data = s.data ++ t.data := by
  cases s; cases t; rfl


/-! ## Claim theorems -/

/-- C1: evaluation of the embedded code at the failing input.  Starting from an
empty style, `load_preset "AB C"` gives left border 'A', right border 'B', top
border unmapped, bottom border 'C'.  The claim says `apply_modifier "X Y"` then
leaves the right border at 'B' (the space skips it) and sets the top border to
'Y'.  The code instead skips the space BEFORE advancing the component iterator,
so 'Y' is inserted at the right border and the top border stays unmapped. -/
theorem C1_apply_modifier_eval :
    ((((TableStyle.load_preset ⟨false, fun _ => none⟩ "AB C").apply_modifier
        "X Y").get_style Component.LeftBorder).1 = some 'X')
    ∧ ((((TableStyle.load_preset ⟨false, fun _ => none⟩ "AB C").apply_modifier
        "X Y").get_style Component.RightBorder).1 = some 'Y')
    ∧ ((((TableStyle.load_preset ⟨false, fun _ => none⟩ "AB C").apply_modifier
        "X Y").get_style Component.TopBorder).1 = none)
    ∧ ((((TableStyle.load_preset ⟨false, fun _ => none⟩ "AB C").apply_modifier
        "X Y").get_style Component.BottomBorder).1 = some 'C') := by
  refine ⟨?_, ?_, ?_, ?_⟩ <;> decide

/-- C2: after `load_preset s`, for every index `i < min (len s) 19`, if `s[i]`
is a space the i-th canonical component is unmapped (`style_exists` false,
`style_or_default` a single space); otherwise `get_style` of that component
returns `some s[i]`. -/
theorem C2_load_preset_positional (ts : TableStyle) (s : String) (i : Nat)
    (h1 : i < s.data.length) (h2 : i < Component.iter.length) :
    (s.data.get ⟨i, h1⟩ = ' ' →
      (ts.load_preset s).style_exists (Component.iter.get ⟨i, h2⟩) = false
      ∧ (ts.load_preset s).style_or_default (Component.iter.get ⟨i, h2⟩) = " ")
    ∧ (s.data.get ⟨i, h1⟩ ≠ ' ' →
      ((ts.load_preset s).get_style (Component.iter.get ⟨i, h2⟩)).1 =
        some (s.data.get ⟨i, h1⟩)) := by
  have hval := loadPresetAux_get s.data Component.iter ts.style i h1 h2
    Component.iter_nodup
  have hst : (ts.load_preset s).style (Component.iter.get ⟨i, h2⟩) =
      (if s.data.get ⟨i, h1⟩ = ' ' then none else some (s.data.get ⟨i, h1⟩)) :=
    hval
  constructor
  · intro hsp
    rw [if_pos hsp] at hst
    simp only [List.get_eq_getElem] at hst
    constructor
    · simp [TableStyle.style_exists, hst]
    · simp [TableStyle.style_or_default, hst]
  · intro hsp
    rw [if_neg hsp] at hst
    simp only [List.get_eq_getElem] at hst
    simp [TableStyle.get_style, hst]

/-- Witness for C2: the spec's concrete scenario, preset `"AB C"` on an empty
style: left border 'A', right border 'B', top border unmapped (a space in the
preset), bottom border 'C'. -/
theorem C2_load_preset_positional_witness :
    (((TableStyle.mk false (fun _ => none)).load_preset "AB C").get_style
        Component.LeftBorder).1 = some 'A'
    ∧ (((TableStyle.mk false (fun _ => none)).load_preset "AB C").get_style
        Component.RightBorder).1 = some 'B'
    ∧ ((TableStyle.mk false (fun _ => none)).load_preset "AB C").style_exists
        Component.TopBorder = false
    ∧ ((TableStyle.mk false (fun _ => none)).load_preset "AB C").style_or_default
        Component.TopBorder = " "
    ∧ (((TableStyle.mk false (fun _ => none)).load_preset "AB C").get_style
        Component.BottomBorder).1 = some 'C' := by
  refine ⟨?_, ?_, ?_, ?_, ?_⟩
  · exact (C2_load_preset_positional (TableStyle.mk false (fun _ => none))
      "AB C" 0 (by decide) (by decide)).2 (by decide)
  · exact (C2_load_preset_positional (TableStyle.mk false (fun _ => none))
      "AB C" 1 (by decide) (by decide)).2 (by decide)
  · exact ((C2_load_preset_positional (TableStyle.mk false (fun _ => none))
      "AB C" 2 (by decide) (by decide)).1 (by decide)).1
  · exact ((C2_load_preset_positional (TableStyle.mk false (fun _ => none))
      "AB C" 2 (by decide) (by decide)).1 (by decide)).2
  · exact (C2_load_preset_positional (TableStyle.mk false (fun _ => none))
      "AB C" 3 (by decide) (by decide)).2 (by decide)

/-- C3: `load_preset` with a string shorter than the component count leaves
every canonical component at a position at or beyond the string's length with
exactly the mapping (or absence of mapping) it had before the call. -/
theorem C3_load_preset_frame (ts : TableStyle) (s : String) (j : Nat)
    (h1 : s.data.length ≤ j) (h2 : j < Component.iter.length) :
    (ts.load_preset s).style (Component.iter.get ⟨j, h2⟩) =
      ts.style (Component.iter.get ⟨j, h2⟩) := by
  apply loadPresetAux_not_mem
  intro hmem
  obtain ⟨i, hi1, hi2, hget⟩ := mem_take_index Component.iter s.data.length _ hmem
  have hfin : (⟨i, hi2⟩ : Fin Component.iter.length) = ⟨j, h2⟩ :=
    (Component.iter_nodup.get_inj_iff).mp hget
  have : i = j := congrArg Fin.val hfin
  omega

/-- Witness for C3: a style mapping `HeaderLines` (position 5) to 'Q' keeps it
after loading the two-character preset `"AB"`. -/
theorem C3_load_preset_frame_witness :
    ((TableStyle.mk false (fun _ => some 'Q')).load_preset "AB").style
      Component.HeaderLines = some 'Q' :=
  C3_load_preset_frame (TableStyle.mk false (fun _ => some 'Q')) "AB" 5
    (by decide) (by decide)

/-- C4: `set_style c None` is a complete no-op: the resulting state is the
input state itself, so no component's mapping changes. -/
theorem C4_set_style_none (ts : TableStyle) (c : Component) :
    ts.set_style c none = ts := rfl

/-- C5: `set_style c (Some x)` followed by `get_style c` yields `Some x`. -/
theorem C5_set_then_get (ts : TableStyle) (c : Component) (x : Char) :
    ((ts.set_style c (some x)).get_style c).1 = some x := by
  simp [TableStyle.set_style, TableStyle.get_style, insertStyle]

/-- C6: `load_preset` is idempotent: applying the same preset twice yields the
same `TableStyle` (the same Style Map) as applying it once. -/
theorem C6_load_preset_idempotent (ts : TableStyle) (s : String) :
    (ts.load_preset s).load_preset s = ts.load_preset s := by
  apply TableStyle.ext
  · rfl
  · funext k
    show loadPresetAux s.data Component.iter
        (loadPresetAux s.data Component.iter ts.style) k =
      loadPresetAux s.data Component.iter ts.style k
    by_cases hk : k ∈ Component.iter.take s.data.length
    · obtain ⟨i, hi1, hi2, hget⟩ :=
        mem_take_index Component.iter s.data.length k hk
      rw [← hget]
      rw [loadPresetAux_get s.data Component.iter _ i hi1 hi2
            Component.iter_nodup,
          loadPresetAux_get s.data Component.iter ts.style i hi1 hi2
            Component.iter_nodup]
    · exact loadPresetAux_not_mem s.data Component.iter
        (loadPresetAux s.data Component.iter ts.style) k hk

/-- C7: the resolver's three-state contract.  If a component is unmapped,
`style_exists` is false and `style_or_default` returns a single space; if it is
mapped to `ch`, `style_exists` is true and `style_or_default` returns `ch` as a
one-character string.  In particular this covers any component of an empty
style, where nothing was ever mutated. -/
theorem C7_resolver (ts : TableStyle) (c : Component) :
    ((ts.get_style c).1 = none →
      ts.style_exists c = false ∧ ts.style_or_default c = " ")
    ∧ ∀ ch : Char, (ts.get_style c).1 = some ch →
      ts.style_exists c = true ∧ ts.style_or_default c = Char.toString ch := by
  constructor
  · intro h
    have hs : ts.style c = none := by
      cases hst : ts.style c with
      | none => rfl
      | some ch => rw [TableStyle.get_style] at h; simp [hst] at h
    constructor
    · simp [TableStyle.style_exists, hs]
    · simp [TableStyle.style_or_default, hs]
  · intro ch h
    have hs : ts.style c = some ch := by
      cases hst : ts.style c with
      | none => rw [TableStyle.get_style] at h; simp [hst] at h
      | some ch2 =>
        rw [TableStyle.get_style] at h
        simp only [hst] at h
        exact h
    constructor
    · simp [TableStyle.style_exists, hs]
    · simp [TableStyle.style_or_default, hs]

/-- Witness for C7: on an empty style, the never-mutated top border has
`style_exists` false and `style_or_default` a single space; after mapping the
left border to 'Z', `style_or_default` returns `"Z"`. -/
theorem C7_resolver_witness :
    ((TableStyle.mk false (fun _ => none)).style_exists Component.TopBorder
        = false
      ∧ (TableStyle.mk false (fun _ => none)).style_or_default
        Component.TopBorder = " ")
    ∧ ((TableStyle.mk false (fun _ => some 'Z')).style_exists
        Component.LeftBorder = true
      ∧ (TableStyle.mk false (fun _ => some 'Z')).style_or_default
        Component.LeftBorder = Char.toString 'Z') := by
  constructor
  · exact (C7_resolver (TableStyle.mk false (fun _ => none))
      Component.TopBorder).1 rfl
  · exact (C7_resolver (TableStyle.mk false (fun _ => some 'Z'))
      Component.LeftBorder).2 'Z' rfl

/-- C8: `load_preset` and `apply_modifier` are total: the embedded functions
are defined for every input string (shorter strings simply stop at their end,
and no error value exists in either signature), and a longer string's excess
characters are silently ignored: once the 19 components are consumed — every
character consumes one for `load_preset`, every non-space character for
`apply_modifier` — appending further text changes nothing. -/
theorem C8_parsers_total (ts : TableStyle) (s t : String)
    (h1 : Component.iter.length ≤ s.data.length)
    (h2 : Component.iter.length ≤
      (s.data.filter (fun c => !(c == ' '))).length) :
    ts.load_preset (s ++ t) = ts.load_preset s
    ∧ ts.apply_modifier (s ++ t) = ts.apply_modifier s := by
  constructor
  · show ({ ts with style := loadPresetAux (s ++ t).data Component.iter ts.style }
      : TableStyle) = { ts with style := loadPresetAux s.data Component.iter ts.style }
    rw [string_data_append,
      loadPresetAux_append s.data t.data Component.iter ts.style h1]
  · show ({ ts with style := applyModifierAux (s ++ t).data Component.iter ts.style }
      : TableStyle) = { ts with style := applyModifierAux s.data Component.iter ts.style }
    rw [string_data_append,
      applyModifierAux_append s.data t.data Component.iter ts.style h2]

/-- Witness for C8: the 19-character space-free default preset with three
extra characters appended configures exactly the same style, through both
parsers. -/
theorem C8_parsers_total_witness :
    (TableStyle.mk false (fun _ => none)).load_preset (ASCII_FULL ++ "XYZ")
      = (TableStyle.mk false (fun _ => none)).load_preset ASCII_FULL
    ∧ (TableStyle.mk false (fun _ => none)).apply_modifier (ASCII_FULL ++ "XYZ")
      = (TableStyle.mk false (fun _ => none)).apply_modifier ASCII_FULL :=
  C8_parsers_total (TableStyle.mk false (fun _ => none)) ASCII_FULL "XYZ"
    (by decide) (by decide)

/-- C9: `get_style` is a pure read: it returns the currently mapped character
(a copy of the map's entry, or `none`) and the state it leaves behind is the
input state itself, so every component's mapping is unchanged. -/
theorem C9_get_style_pure (ts : TableStyle) (c : Component) :
    (ts.get_style c).2 = ts ∧ (ts.get_style c).1 = ts.style c := by
  constructor
  · rfl
  · rw [TableStyle.get_style]
    cases ts.style c with
    | none => rfl
    | some ch => rfl

/-- C10: the header-presence flag is `false` after `TableStyle::new`, none of
`load_preset`, `apply_modifier`, `set_style` or `get_style` ever change it, and
hence `has_header = false` holds in every state reachable through these
operations alone. -/
theorem C10_has_header_invariant (ts0 ts : TableStyle) (h : Reachable ts) :
    TableStyle.new.has_header = false
    ∧ (∀ s, (ts0.load_preset s).has_header = ts0.has_header)
    ∧ (∀ s, (ts0.apply_modifier s).has_header = ts0.has_header)
    ∧ (∀ c oc, (ts0.set_style c oc).has_header = ts0.has_header)
    ∧ (∀ c, ((ts0.get_style c).2).has_header = ts0.has_header)
    ∧ ts.has_header = false := by
  refine ⟨rfl, fun s => rfl, fun s => rfl, fun c oc => ?_, fun c => rfl, ?_⟩
  · cases oc with
    | none => rfl
    | some ch => rfl
  · induction h with
    | new => rfl
    | load_preset ts s _ ih => exact ih
    | apply_modifier ts s _ ih => exact ih
    | set_style ts c oc _ ih =>
      cases oc with
      | none => exact ih
      | some ch => exact ih
    | get_style ts c _ ih => exact ih

/-- Witness for C10: the freshly constructed style is reachable and its
header-presence flag is false. -/
theorem C10_has_header_invariant_witness : TableStyle.new.has_header = false :=
  (C10_has_header_invariant TableStyle.new TableStyle.new Reachable.new).2.2.2.2.2
